import Mathlib

/-!
Verification of the snippet-to-record pattern matcher of
github.com/alexflint/go-orangetheory (src/orangetheory.go).

The schema below is a faithful transcription of the `snippet` struct
(orangetheory.go lines 28-66): an ordered list of field specifications,
each either a named capturing pattern or an anonymous separator pattern.
The patterns appearing in the struct tags are only of these shapes:

  * plain literal text (no regex metacharacters),
  * `\w+` (one or more of `[0-9A-Za-z_]`, ASCII, as in Go's regexp),
  * `\d+` (one or more of `[0-9]`),
  * `\w{2}` (exactly two word characters),
  * a single `.` metacharacter (any character except newline), which
    occurs once, inside the tag " AVG. HEART-RATE Peak HR: "; we split
    that tag into literal " AVG", any-character, literal
    " HEART-RATE Peak HR: ", which denotes the same regular language.

Note that the separator between Hour and Minute (line 41) is the
two-character literal U+200C ':' (zero-width non-joiner, then colon),
exactly as in the source.

The matching engine (`restructure.Find`, a dependency that is not part of
this repository's sources) is modelled from the spec: matching is anchored
at the start of the input, consumes a prefix matching every field pattern
in declaration order, ignores trailing input, and returns the named
captures; anonymous captures are discarded. Greedy regex matching of this
particular schema coincides with deterministic maximal munch, because each
`\w+`/`\d+` pattern is immediately followed by a pattern whose first
character is outside the repeated class (a comma, space, slash or U+200C),
so no shorter capture can ever extend to a full match.
-/

namespace Orangetheory

/-- Character class `\d` of Go's regexp package: the ASCII decimal digits. -/
def isDigitChar (c : Char) : Bool :=
  c.isDigit

/-- Character class `\w` of Go's regexp package: `[0-9A-Za-z_]` (ASCII only). -/
def isWordChar (c : Char) : Bool :=
  c.isAlpha || c.isDigit || c = '_'

/-- Shapes of the regular-expression fragments that occur in the `snippet`
struct tags. -/
inductive Pat where
  | lit (l : List Char)
  | digitPlus
  | wordPlus
  | wordExact (n : Nat)
  | anyNoNL
deriving DecidableEq, Repr

/-- One entry of the schema: an optional field name (absent for anonymous
separators, which correspond to the blank-named struct fields) and a
pattern. -/
structure FieldSpec where
  name : Option String
  pat : Pat
deriving DecidableEq, Repr

/-- Shorthand for an anonymous literal separator. -/
def sep (s : String) : FieldSpec :=
  ⟨none, Pat.lit s.data⟩

/-- Shorthand for a named field. -/
def field (n : String) (p : Pat) : FieldSpec :=
  ⟨some n, p⟩

/-- The `snippet` struct of orangetheory.go lines 28-66, transcribed in
declaration order. The tag " AVG. HEART-RATE Peak HR: " contains the
regex metacharacter `.` and is split into three consecutive anonymous
specs denoting the same language. -/
def snippetSpecs : List FieldSpec :=
  [ sep "STUDIO WORKOUT SUMMARY ",
    field "City" Pat.wordPlus,
    sep ", ",
    field "State" Pat.wordPlus,
    sep " ",
    field "Month" Pat.digitPlus,
    sep "/",
    field "Day" Pat.digitPlus,
    sep "/",
    field "Year" Pat.digitPlus,
    sep " ",
    field "Hour" Pat.digitPlus,
    sep "\u200C:",
    field "Minute" Pat.digitPlus,
    sep " ",
    field "AMPM" (Pat.wordExact 2),
    sep " ",
    field "Instructor" Pat.wordPlus,
    sep " ",
    field "Zone1" Pat.digitPlus,
    sep " ",
    field "Zone2" Pat.digitPlus,
    sep " ",
    field "Zone3" Pat.digitPlus,
    sep " ",
    field "Zone4" Pat.digitPlus,
    sep " ",
    field "Zone5" Pat.digitPlus,
    sep " MINUTES / ZONE ",
    field "Calories" Pat.digitPlus,
    sep " CALORIES BURNED ",
    field "SplatPoints" Pat.digitPlus,
    sep " SPLAT POINTS ",
    field "AverageHeartRate" Pat.digitPlus,
    sep " AVG",
    FieldSpec.mk none Pat.anyNoNL,
    sep " HEART-RATE Peak HR: ",
    field "PeakHeartRate" Pat.digitPlus ]

/-- Record: mapping from field name to captured substring, in schema order. -/
abbrev Record := List (String × String)

/-- Result of applying the matcher to one input. -/
inductive MatchResult where
  | Matched (r : Record)
  | NotMatched
deriving DecidableEq, Repr

/-- Consume a literal from the front of the input, returning the rest. -/
def matchLit : List Char → List Char → Option (List Char)
  | [], cs => some cs
  | _ :: _, [] => none
  | l :: ls, c :: cs => if l = c then matchLit ls cs else none

/-- Maximal munch of characters satisfying `p`: returns the (possibly
empty) longest prefix all of whose characters satisfy `p`, and the rest. -/
def munch (p : Char → Bool) : List Char → List Char × List Char
  | [] => ([], [])
  | c :: cs =>
    if p c then
      let m := munch p cs
      (c :: m.1, m.2)
    else ([], c :: cs)

/-- Consume exactly `n` characters satisfying `p`. -/
def takeExact (p : Char → Bool) : Nat → List Char → Option (List Char × List Char)
  | 0, cs => some ([], cs)
  | _ + 1, [] => none
  | n + 1, c :: cs =>
    if p c then (takeExact p n cs).map (fun x => (c :: x.1, x.2)) else none

/-- Modelled from the spec: matching one field pattern against the front of
the input, returning the captured text and the remaining input. Greedy
matching of `\w+`/`\d+` is maximal munch (see the header comment for why
this coincides with the regex semantics on this schema). -/
def runPat : Pat → List Char → Option (List Char × List Char)
  | Pat.lit l, cs => (matchLit l cs).map (fun rest => (l, rest))
  | Pat.digitPlus, cs =>
    let m := munch isDigitChar cs
    if m.1.isEmpty then none else some m
  | Pat.wordPlus, cs =>
    let m := munch isWordChar cs
    if m.1.isEmpty then none else some m
  | Pat.wordExact n, cs => takeExact isWordChar n cs
  | Pat.anyNoNL, [] => none
  | Pat.anyNoNL, c :: cs => if c = '\n' then none else some ([c], cs)

/-- Modelled from the spec: run every field spec in order against the
input, collecting the named captures and discarding anonymous ones;
returns the record together with the unconsumed rest of the input. -/
def runSchema : List FieldSpec → List Char → Option (Record × List Char)
  | [], cs => some ([], cs)
  | spec :: specs, cs =>
    match runPat spec.pat cs with
    | none => none
    | some capRest =>
      match runSchema specs capRest.2 with
      | none => none
      | some fieldsRest =>
        match spec.name with
        | some n => some ((n, String.mk capRest.1) :: fieldsRest.1, fieldsRest.2)
        | none => some fieldsRest

/-- Modelled from the spec: `snippetParser.Find` (orangetheory.go line
168), anchored at the start of the input; trailing unmatched input is
ignored. -/
def snippetFind (s : String) : MatchResult :=
  match runSchema snippetSpecs s.data with
  | some fieldsRest => MatchResult.Matched fieldsRest.1
  | none => MatchResult.NotMatched

/-- The example snippet of orangetheory.go line 27, byte for byte; note
the U+200C character between "12" and ":15". -/
def exampleInput : String :=
  "STUDIO WORKOUT SUMMARY Bothell, WA 06/13/2021 12\u200C:15 PM Tiffany 15 0 0 0 0 MINUTES / ZONE 55 CALORIES BURNED 0 SPLAT POINTS 75 AVG. HEART-RATE Peak HR: 80"

/-- The same snippet as spelled in the spec's §8 test example, with a
plain ASCII colon between "12" and "15" (no U+200C). -/
def plainColonInput : String :=
  "STUDIO WORKOUT SUMMARY Bothell, WA 06/13/2021 12:15 PM Tiffany 15 0 0 0 0 MINUTES / ZONE 55 CALORIES BURNED 0 SPLAT POINTS 75 AVG. HEART-RATE Peak HR: 80"

/-- The record the matcher extracts from `exampleInput`. -/
def exampleRecord : Record :=
  [ ("City", "Bothell"), ("State", "WA"), ("Month", "06"), ("Day", "13"),
    ("Year", "2021"), ("Hour", "12"), ("Minute", "15"), ("AMPM", "PM"),
    ("Instructor", "Tiffany"), ("Zone1", "15"), ("Zone2", "0"),
    ("Zone3", "0"), ("Zone4", "0"), ("Zone5", "0"), ("Calories", "55"),
    ("SplatPoints", "0"), ("AverageHeartRate", "75"),
    ("PeakHeartRate", "80") ]

/-- Test whether the first character of `t` (if any) falls outside the
class `p`; an empty `t` passes. -/
def headBlocks (p : Char → Bool) : List Char → Bool
  | [] => true
  | c :: _ => !p c

/-- Condition on trailing text `t` under which a pattern that consumed up
to the end of the input consumes exactly the same text once `t` is
appended: the repeated classes must not continue into `t`. -/
def patTailOk : Pat → List Char → Bool
  | Pat.digitPlus, t => headBlocks isDigitChar t
  | Pat.wordPlus, t => headBlocks isWordChar t
  | _, _ => true

/-- The `patTailOk` condition for the last spec of a schema (trivially
true for the empty schema). -/
def tailOk (t : List Char) : List FieldSpec → Bool
  | [] => true
  | spec :: specs => if specs.isEmpty then patTailOk spec.pat t else tailOk t specs

/-- Soundness predicate for a captured text with respect to its pattern. -/
def capOk : Pat → List Char → Bool
  | Pat.lit l, cap => cap == l
  | Pat.digitPlus, cap => !cap.isEmpty && cap.all isDigitChar
  | Pat.wordPlus, cap => !cap.isEmpty && cap.all isWordChar
  | Pat.wordExact n, cap => cap.length == n && cap.all isWordChar
  | Pat.anyNoNL, cap => cap.length == 1 && cap.all (fun c => !(c == '\n'))

/-- Every pattern occurring in the snippet schema consumes at least one
character; this predicate singles out the degenerate shapes that do not. -/
def needsChar : Pat → Bool
  | Pat.lit l => !l.isEmpty
  | Pat.wordExact n => n != 0
  | _ => true

/-- The literal separators of a schema, in order. -/
def litsOf (specs : List FieldSpec) : List (List Char) :=
  specs.filterMap (fun spec =>
    match spec.pat with
    | Pat.lit l => some l
    | _ => none)

/-- The names of the named fields of a schema whose pattern is `p`, in
order. -/
def namesOfPat (p : Pat) (specs : List FieldSpec) : List String :=
  specs.filterMap (fun spec => if spec.pat = p then spec.name else none)

/-- Soundness of a record with respect to a schema: the record lists, in
order, exactly the named fields of the schema, and each captured value
satisfies its pattern (`capOk`). -/
def RecOk : List FieldSpec → Record → Prop
  | [], r => r = []
  | spec :: specs, r =>
    match spec.name with
    | none => RecOk specs r
    | some n =>
      ∃ v r2, r = (n, v) :: r2 ∧ capOk spec.pat v.data = true ∧ RecOk specs r2

/-- The literal "STUDIO WORKOUT SUMMARY " opening the schema. -/
def headerLit : String := "STUDIO WORKOUT SUMMARY "

/-- Field lookup in a record (first match), defaulting to "". -/
def getField (r : Record) (n : String) : String :=
  match r with
  | [] => ""
  | p :: r => if p.1 = n then p.2 else getField r n

/-- Sort key of orangetheory.go lines 181-182: the string
"Year-Month-Day" built by Sprintf from the three captured fields. -/
def dateKey (r : Record) : String :=
  getField r "Year" ++ "-" ++ getField r "Month" ++ "-" ++ getField r "Day"

/-- Lexicographic comparison of character lists, as Go's `<` compares
strings (bytewise; identical to code-point order on this ASCII data). -/
def listLess : List Char → List Char → Bool
  | [], [] => false
  | [], _ :: _ => true
  | _ :: _, [] => false
  | a :: as, b :: bs =>
    if a.toNat < b.toNat then true
    else if b.toNat < a.toNat then false
    else listLess as bs

/-- Comparator of the sort.Slice call (orangetheory.go line 183):
lexicographic string comparison of the date keys. -/
def recordBefore (a b : Record) : Bool :=
  listLess (dateKey a).data (dateKey b).data

/-- Insert a record into a list sorted by `recordBefore`. -/
def insertRec (x : Record) : List Record → List Record
  | [] => [x]
  | y :: ys => if recordBefore y x then y :: insertRec x ys else x :: y :: ys

/-- Modelled from the spec: the report sorts the accumulated records by
the `recordBefore` comparator (sort.Slice leaves the algorithm
unspecified; insertion sort yields a sorted permutation, which is the
unique sorted order when all keys are distinct). -/
def sortRecords : List Record → List Record
  | [] => []
  | x :: xs => insertRec x (sortRecords xs)

/-- Structural requirement around the City field: the input starts with
the header literal, immediately followed by a nonempty maximal run of
word characters (the city), immediately followed by the literal ", ". -/
def cityShape (cs : List Char) : Bool :=
  match matchLit headerLit.data cs with
  | none => false
  | some rest =>
    let m := munch isWordChar rest
    !m.1.isEmpty && (matchLit (", ".data) m.2).isSome

/-- Infix test: does `l` occur contiguously somewhere in the input? -/
def hasSeq (l : List Char) : List Char → Bool
  | [] => l.isEmpty
  | c :: cs => (matchLit l (c :: cs)).isSome || hasSeq l cs

/-- The names of the named fields of the snippet schema, in declaration
order. -/
def snippetFieldNames : List String :=
  [ "City", "State", "Month", "Day", "Year", "Hour", "Minute", "AMPM",
    "Instructor", "Zone1", "Zone2", "Zone3", "Zone4", "Zone5", "Calories",
    "SplatPoints", "AverageHeartRate", "PeakHeartRate" ]

/-- A record with Year="2021", Month="09" (spec §8 sorting example). -/
def recSep09 : Record := [("Year", "2021"), ("Month", "09"), ("Day", "01")]

/-- A record with Year="2021", Month="10" (spec §8 sorting example). -/
def recOct10 : Record := [("Year", "2021"), ("Month", "10"), ("Day", "01")]

/-- A record with Year="2021", Month="2" (spec §8 sorting example). -/
def recMonth2 : Record := [("Year", "2021"), ("Month", "2"), ("Day", "01")]

/-- The example snippet with the literal "CALORIES BURNED" misspelled as
"CALORIES BURNT". -/
def misspelledInput : String :=
  "STUDIO WORKOUT SUMMARY Bothell, WA 06/13/2021 12\u200C:15 PM Tiffany 15 0 0 0 0 MINUTES / ZONE 55 CALORIES BURNT 0 SPLAT POINTS 75 AVG. HEART-RATE Peak HR: 80"

/-- The example snippet with the separator " AVG. HEART-RATE Peak HR: "
altered at its "." position (to "AVGX"); the dot in the struct tag is a
regex any-character, so this input still matches. -/
def avgAlteredInput : String :=
  "STUDIO WORKOUT SUMMARY Bothell, WA 06/13/2021 12\u200C:15 PM Tiffany 15 0 0 0 0 MINUTES / ZONE 55 CALORIES BURNED 0 SPLAT POINTS 75 AVGX HEART-RATE Peak HR: 80"

/-- An otherwise valid snippet whose city, "New York", contains a space
(a character outside the class of `\w`). -/
def newYorkInput : String :=
  "STUDIO WORKOUT SUMMARY New York, NY 06/13/2021 12\u200C:15 PM Tiffany 15 0 0 0 0 MINUTES / ZONE 55 CALORIES BURNED 0 SPLAT POINTS 75 AVG. HEART-RATE Peak HR: 80"

/-- The record extracted from `exampleInput ++ "5"`: the final greedy
`\d+` capture absorbs the appended digit, giving PeakHeartRate "805". -/
def trailingDigitRecord : Record :=
  [ ("City", "Bothell"), ("State", "WA"), ("Month", "06"), ("Day", "13"),
    ("Year", "2021"), ("Hour", "12"), ("Minute", "15"), ("AMPM", "PM"),
    ("Instructor", "Tiffany"), ("Zone1", "15"), ("Zone2", "0"),
    ("Zone3", "0"), ("Zone4", "0"), ("Zone5", "0"), ("Calories", "55"),
    ("SplatPoints", "0"), ("AverageHeartRate", "75"),
    ("PeakHeartRate", "805") ]

theorem matchLit_decomp {l cs rest : List Char} (h : matchLit l cs = some rest) :
    cs = l ++ rest := by
  induction l generalizing cs with
  | nil => simpa [matchLit] using h
  | cons a l ih =>
    match cs with
    | [] => simp [matchLit] at h
    | c :: cs =>
      by_cases hac : a = c
      · subst hac
        simp only [matchLit, if_pos rfl] at h
        simpa using ih h
      · simp [matchLit, hac] at h

theorem matchLit_append {l cs rest t : List Char} (h : matchLit l cs = some rest) :
    matchLit l (cs ++ t) = some (rest ++ t) := by
  induction l generalizing cs with
  | nil => simp [matchLit] at h ⊢; simp [h]
  | cons a l ih =>
    match cs with
    | [] => simp [matchLit] at h
    | c :: cs =>
      by_cases hac : a = c
      · subst hac
        simp only [matchLit, if_pos rfl] at h ⊢
        exact ih h
      · simp [matchLit, hac] at h

theorem munch_decomp (p : Char → Bool) (cs : List Char) :
    (munch p cs).1 ++ (munch p cs).2 = cs := by
  induction cs with
  | nil => rfl
  | cons c cs ih =>
    by_cases hc : p c
    · simp [munch, hc, ih]
    · simp [munch, hc]

theorem munch_all (p : Char → Bool) (cs : List Char) :
    (munch p cs).1.all p = true := by
  induction cs with
  | nil => rfl
  | cons c cs ih =>
    by_cases hc : p c
    · simp [munch, hc, ih]
    · simp [munch, hc]

theorem munch_append_ne {p : Char → Bool} {cs : List Char} (t : List Char)
    (h : (munch p cs).2 ≠ []) :
    munch p (cs ++ t) = ((munch p cs).1, (munch p cs).2 ++ t) := by
  induction cs with
  | nil => exact absurd rfl h
  | cons c cs ih =>
    by_cases hc : p c = true
    · have h2 : (munch p cs).2 ≠ [] := by simpa [munch, hc] using h
      simp [munch, hc, ih h2]
    · simp [munch, hc]

theorem munch_append_all {p : Char → Bool} {cs : List Char} (t : List Char)
    (h : (munch p cs).2 = []) :
    munch p (cs ++ t) = ((munch p cs).1 ++ (munch p t).1, (munch p t).2) := by
  induction cs with
  | nil => simp [munch]
  | cons c cs ih =>
    by_cases hc : p c = true
    · have h2 : (munch p cs).2 = [] := by simpa [munch, hc] using h
      simp [munch, hc, ih h2]
    · simp [munch, hc] at h

theorem munch_of_headBlocks {p : Char → Bool} {t : List Char}
    (h : headBlocks p t = true) : munch p t = ([], t) := by
  match t with
  | [] => rfl
  | c :: cs =>
    simp [headBlocks] at h
    simp [munch, h]

theorem takeExact_decomp {p : Char → Bool} {n : Nat} {cs a rest : List Char}
    (h : takeExact p n cs = some (a, rest)) :
    cs = a ++ rest ∧ a.length = n ∧ a.all p = true := by
  induction n generalizing cs a rest with
  | zero =>
    simp only [takeExact, Option.some.injEq, Prod.mk.injEq] at h
    obtain ⟨h1, h2⟩ := h
    subst h1
    subst h2
    simp
  | succ n ih =>
    match cs with
    | [] => simp [takeExact] at h
    | c :: cs =>
      by_cases hc : p c = true
      · simp only [takeExact, hc, if_true, Option.map_eq_some'] at h
        obtain ⟨⟨a2, r2⟩, hx, heq⟩ := h
        simp only [Prod.mk.injEq] at heq
        obtain ⟨ha, hr⟩ := heq
        obtain ⟨hcs, hlen, hall⟩ := ih hx
        subst hr
        subst hcs
        simp [← ha, hlen, hc, hall]
      · simp [takeExact, hc] at h

theorem takeExact_append {p : Char → Bool} {n : Nat} {cs a rest : List Char}
    (t : List Char) (h : takeExact p n cs = some (a, rest)) :
    takeExact p n (cs ++ t) = some (a, rest ++ t) := by
  induction n generalizing cs a rest with
  | zero =>
    simp only [takeExact, Option.some.injEq, Prod.mk.injEq] at h ⊢
    obtain ⟨h1, h2⟩ := h
    subst h1
    subst h2
    simp
  | succ n ih =>
    match cs with
    | [] => simp [takeExact] at h
    | c :: cs =>
      by_cases hc : p c = true
      · simp only [takeExact, hc, if_true, Option.map_eq_some'] at h
        obtain ⟨⟨a2, r2⟩, hx, heq⟩ := h
        simp only [Prod.mk.injEq] at heq
        obtain ⟨ha, hr⟩ := heq
        subst hr
        simp only [List.cons_append, takeExact, hc, if_true, ih hx,
          Option.map_some']
        simp [← ha]
        exact ih hx
      · simp [takeExact, hc] at h

theorem runPat_lit_parts {l cs : List Char} {x : List Char × List Char}
    (h : runPat (Pat.lit l) cs = some x) : x.1 = l ∧ cs = l ++ x.2 := by
  simp only [runPat, Option.map_eq_some'] at h
  obtain ⟨rest, hm, hx⟩ := h
  subst hx
  exact ⟨rfl, matchLit_decomp hm⟩

theorem runPat_decomp {pat : Pat} {cs : List Char} {x : List Char × List Char}
    (h : runPat pat cs = some x) : cs = x.1 ++ x.2 := by
  cases pat with
  | lit l =>
    obtain ⟨h1, h2⟩ := runPat_lit_parts h
    rw [h2, h1]
  | digitPlus =>
    simp only [runPat] at h
    split at h
    · exact absurd h (by simp)
    · rw [← Option.some.inj h]
      exact (munch_decomp isDigitChar cs).symm
  | wordPlus =>
    simp only [runPat] at h
    split at h
    · exact absurd h (by simp)
    · rw [← Option.some.inj h]
      exact (munch_decomp isWordChar cs).symm
  | wordExact n =>
    exact (takeExact_decomp (show takeExact isWordChar n cs = some (x.1, x.2) from h)).1
  | anyNoNL =>
    match cs with
    | [] => simp [runPat] at h
    | c :: cs =>
      simp only [runPat] at h
      split at h
      · exact absurd h (by simp)
      · rw [← Option.some.inj h]
        rfl

theorem runPat_capOk {pat : Pat} {cs : List Char} {x : List Char × List Char}
    (h : runPat pat cs = some x) : capOk pat x.1 = true := by
  cases pat with
  | lit l =>
    obtain ⟨h1, _⟩ := runPat_lit_parts h
    simp [capOk, h1]
  | digitPlus =>
    simp only [runPat] at h
    split at h
    · exact absurd h (by simp)
    · rw [← Option.some.inj h]
      next hne =>
      simp only [capOk, Bool.and_eq_true, Bool.not_eq_true']
      exact ⟨by simpa using hne, munch_all isDigitChar cs⟩
  | wordPlus =>
    simp only [runPat] at h
    split at h
    · exact absurd h (by simp)
    · rw [← Option.some.inj h]
      next hne =>
      simp only [capOk, Bool.and_eq_true, Bool.not_eq_true']
      exact ⟨by simpa using hne, munch_all isWordChar cs⟩
  | wordExact n =>
    obtain ⟨_, hlen, hall⟩ :=
      takeExact_decomp (show takeExact isWordChar n cs = some (x.1, x.2) from h)
    simp [capOk, hlen, hall]
  | anyNoNL =>
    match cs with
    | [] => simp [runPat] at h
    | c :: cs =>
      simp only [runPat] at h
      split at h
      · exact absurd h (by simp)
      · rw [← Option.some.inj h]
        next hc =>
        simp [capOk, hc]

theorem runPat_append {pat : Pat} {cs : List Char} {x : List Char × List Char}
    (t : List Char) (h : runPat pat cs = some x)
    (ht : x.2 = [] → patTailOk pat t = true) :
    runPat pat (cs ++ t) = some (x.1, x.2 ++ t) := by
  cases pat with
  | lit l =>
    simp only [runPat, Option.map_eq_some'] at h ⊢
    obtain ⟨rest, hm, hx⟩ := h
    subst hx
    exact ⟨rest ++ t, matchLit_append hm, rfl⟩
  | digitPlus =>
    simp only [runPat] at h ⊢
    split at h
    · exact absurd h (by simp)
    · next hne =>
      rw [← Option.some.inj h] at ht ⊢
      by_cases hnil : (munch isDigitChar cs).2 = []
      · have hblock : headBlocks isDigitChar t = true := ht hnil
        rw [munch_append_all t hnil, munch_of_headBlocks hblock]
        simp only [List.append_nil, hnil, List.nil_append]
        rw [if_neg hne]
      · rw [munch_append_ne t hnil]
        have : ((munch isDigitChar cs).1.isEmpty) = false := by
          simpa using hne
        simp [this]
  | wordPlus =>
    simp only [runPat] at h ⊢
    split at h
    · exact absurd h (by simp)
    · next hne =>
      rw [← Option.some.inj h] at ht ⊢
      by_cases hnil : (munch isWordChar cs).2 = []
      · have hblock : headBlocks isWordChar t = true := ht hnil
        rw [munch_append_all t hnil, munch_of_headBlocks hblock]
        simp only [List.append_nil, hnil, List.nil_append]
        rw [if_neg hne]
      · rw [munch_append_ne t hnil]
        have : ((munch isWordChar cs).1.isEmpty) = false := by
          simpa using hne
        simp [this]
  | wordExact n =>
    have := takeExact_append t (show takeExact isWordChar n cs = some (x.1, x.2) from h)
    simpa using this
  | anyNoNL =>
    match cs with
    | [] => simp [runPat] at h
    | c :: cs =>
      simp only [runPat] at h ⊢
      split at h
      · exact absurd h (by simp)
      · next hc =>
        rw [← Option.some.inj h]
        simp [runPat, hc]

theorem runPat_nil {pat : Pat} (hneed : needsChar pat = true) :
    runPat pat [] = none := by
  cases pat with
  | lit l =>
    match l with
    | [] => simp [needsChar] at hneed
    | c :: l => simp [runPat, matchLit]
  | digitPlus => rfl
  | wordPlus => rfl
  | wordExact n =>
    match n with
    | 0 => simp [needsChar] at hneed
    | m + 1 => simp [runPat, takeExact]
  | anyNoNL => rfl

theorem runSchema_cons_split {spec : FieldSpec} {specs : List FieldSpec}
    {cs : List Char} {x : Record × List Char}
    (h : runSchema (spec :: specs) cs = some x) :
    ∃ capRest fr, runPat spec.pat cs = some capRest ∧
      runSchema specs capRest.2 = some fr := by
  simp only [runSchema] at h
  cases hrp : runPat spec.pat cs with
  | none =>
    simp only [hrp] at h
    exact absurd h (by simp)
  | some capRest =>
    simp only [hrp] at h
    cases hrs : runSchema specs capRest.2 with
    | none =>
      simp only [hrs] at h
      exact absurd h (by simp)
    | some fr => exact ⟨capRest, fr, rfl, hrs⟩

theorem runSchema_cons_eq {spec : FieldSpec} {specs : List FieldSpec}
    {cs : List Char} {x : Record × List Char}
    (h : runSchema (spec :: specs) cs = some x) :
    ∃ capRest fr, runPat spec.pat cs = some capRest ∧
      runSchema specs capRest.2 = some fr ∧ x.2 = fr.2 ∧
      ((spec.name = none ∧ x.1 = fr.1) ∨
        (∃ n, spec.name = some n ∧ x.1 = (n, String.mk capRest.1) :: fr.1)) := by
  simp only [runSchema] at h
  cases hrp : runPat spec.pat cs with
  | none =>
    simp only [hrp] at h
    exact absurd h (by simp)
  | some capRest =>
    simp only [hrp] at h
    cases hrs : runSchema specs capRest.2 with
    | none =>
      simp only [hrs] at h
      exact absurd h (by simp)
    | some fr =>
      simp only [hrs] at h
      cases hnm : spec.name with
      | none =>
        simp only [hnm, Option.some.injEq] at h
        exact ⟨capRest, fr, rfl, hrs, by rw [← h], Or.inl ⟨rfl, by rw [← h]⟩⟩
      | some n =>
        simp only [hnm, Option.some.injEq] at h
        refine ⟨capRest, fr, rfl, hrs, ?_, Or.inr ⟨n, rfl, ?_⟩⟩
        · rw [← h]
        · rw [← h]

theorem runSchema_nil_eq {specs : List FieldSpec} {x : Record × List Char}
    (hneed : specs.all (fun spec => needsChar spec.pat) = true)
    (h : runSchema specs [] = some x) : specs = [] ∧ x = ([], []) := by
  cases specs with
  | nil =>
    simp only [runSchema, Option.some.injEq] at h
    exact ⟨rfl, h.symm⟩
  | cons spec specs =>
    simp only [List.all_cons, Bool.and_eq_true] at hneed
    have hnone : runPat spec.pat [] = none := runPat_nil hneed.1
    simp [runSchema, hnone] at h

theorem runSchema_names {specs : List FieldSpec} {cs : List Char}
    {x : Record × List Char} (h : runSchema specs cs = some x) :
    x.1.map Prod.fst = specs.filterMap FieldSpec.name := by
  induction specs generalizing cs x with
  | nil =>
    simp only [runSchema, Option.some.injEq] at h
    rw [← h]
    simp
  | cons spec specs ih =>
    obtain ⟨capRest, fr, _, hrs, _, hx⟩ := runSchema_cons_eq h
    rcases hx with ⟨hnm, hx1⟩ | ⟨n, hnm, hx1⟩
    · rw [hx1, List.filterMap_cons, hnm]
      exact ih hrs
    · rw [hx1, List.filterMap_cons, hnm]
      simp only [List.map_cons]
      rw [ih hrs]

theorem runSchema_recOk {specs : List FieldSpec} {cs : List Char}
    {x : Record × List Char} (h : runSchema specs cs = some x) :
    RecOk specs x.1 := by
  induction specs generalizing cs x with
  | nil =>
    simp only [runSchema, Option.some.injEq] at h
    rw [← h]
    rfl
  | cons spec specs ih =>
    obtain ⟨capRest, fr, hrp, hrs, _, hx⟩ := runSchema_cons_eq h
    rcases hx with ⟨hnm, hx1⟩ | ⟨n, hnm, hx1⟩
    · simp only [RecOk, hnm, hx1]
      exact ih hrs
    · simp only [RecOk, hnm, hx1]
      exact ⟨String.mk capRest.1, fr.1, rfl, runPat_capOk hrp, ih hrs⟩

theorem runSchema_append {specs : List FieldSpec} {cs : List Char}
    {x : Record × List Char} (t : List Char)
    (hneed : specs.all (fun spec => needsChar spec.pat) = true)
    (htail : tailOk t specs = true)
    (h : runSchema specs cs = some x) :
    runSchema specs (cs ++ t) = some (x.1, x.2 ++ t) := by
  induction specs generalizing cs x with
  | nil =>
    simp only [runSchema, Option.some.injEq] at h ⊢
    rw [← h]
  | cons spec specs ih =>
    obtain ⟨capRest, fr, hrp, hrs, hx2, hx⟩ := runSchema_cons_eq h
    simp only [List.all_cons, Bool.and_eq_true] at hneed
    by_cases hnil : capRest.2 = []
    · obtain ⟨hspecs, hfr⟩ := runSchema_nil_eq hneed.2 (hnil ▸ hrs)
      subst hspecs
      have hlast : patTailOk spec.pat t = true := by
        simpa [tailOk] using htail
      have hp2 := runPat_append t hrp (fun _ => hlast)
      rw [hnil] at hp2
      simp only [runSchema, hp2, List.nil_append]
      have hfr2 : fr.2 = [] := by rw [hfr]
      rcases hx with ⟨hnm, hx1⟩ | ⟨n, hnm, hx1⟩
      · rw [hnm, hx1, hx2, hfr2]
        have hfr1 : fr.1 = [] := by rw [hfr]
        rw [hfr1]
        simp
      · rw [hnm, hx1, hx2, hfr2]
        have hfr1 : fr.1 = [] := by rw [hfr]
        rw [hfr1]
        simp
    · have hp2 := runPat_append t hrp (fun hcontra => absurd hcontra hnil)
      have hrs2 : runSchema specs (capRest.2 ++ t) = some (fr.1, fr.2 ++ t) := by
        cases specs with
        | nil =>
          simp only [runSchema, Option.some.injEq] at hrs ⊢
          rw [← hrs]
        | cons spec2 specs2 =>
          have htail2 : tailOk t (spec2 :: specs2) = true := by
            simpa [tailOk] using htail
          exact ih hneed.2 htail2 hrs
      simp only [runSchema, hp2, hrs2]
      rcases hx with ⟨hnm, hx1⟩ | ⟨n, hnm, hx1⟩
      · rw [hnm, hx1, hx2]
      · rw [hnm, hx1, hx2]

theorem runSchema_lits {specs : List FieldSpec} {cs : List Char}
    {x : Record × List Char} (h : runSchema specs cs = some x) :
    ∀ l ∈ litsOf specs, ∃ a b, cs = a ++ l ++ b := by
  induction specs generalizing cs x with
  | nil => simp [litsOf]
  | cons spec specs ih =>
    intro l hl
    obtain ⟨capRest, fr, hrp, hrs, _, _⟩ := runSchema_cons_eq h
    have hdec := runPat_decomp hrp
    rw [litsOf, List.filterMap_cons] at hl
    cases hpat : spec.pat with
    | lit l0 =>
      rw [hpat] at hl
      simp only [List.mem_cons] at hl
      rcases hl with hl | hl
      · subst hl
        rw [hpat] at hrp
        obtain ⟨hcap, hcs⟩ := runPat_lit_parts hrp
        exact ⟨[], capRest.2, by simpa using hcs⟩
      · obtain ⟨a, b, hab⟩ := ih hrs l hl
        exact ⟨capRest.1 ++ a, b, by rw [hdec, hab]; simp⟩
    | digitPlus =>
      rw [hpat] at hl
      obtain ⟨a, b, hab⟩ := ih hrs l hl
      exact ⟨capRest.1 ++ a, b, by rw [hdec, hab]; simp⟩
    | wordPlus =>
      rw [hpat] at hl
      obtain ⟨a, b, hab⟩ := ih hrs l hl
      exact ⟨capRest.1 ++ a, b, by rw [hdec, hab]; simp⟩
    | wordExact n =>
      rw [hpat] at hl
      obtain ⟨a, b, hab⟩ := ih hrs l hl
      exact ⟨capRest.1 ++ a, b, by rw [hdec, hab]; simp⟩
    | anyNoNL =>
      rw [hpat] at hl
      obtain ⟨a, b, hab⟩ := ih hrs l hl
      exact ⟨capRest.1 ++ a, b, by rw [hdec, hab]; simp⟩

theorem matchLit_self_append (l b : List Char) : matchLit l (l ++ b) = some b := by
  induction l with
  | nil => rfl
  | cons c l ih => simp [matchLit, ih]

theorem hasSeq_of_append (l a b : List Char) : hasSeq l (a ++ l ++ b) = true := by
  induction a with
  | nil =>
    rw [List.nil_append]
    cases l with
    | nil =>
      cases b with
      | nil => rfl
      | cons c cs => rfl
    | cons c ls =>
      rw [List.cons_append]
      simp only [hasSeq]
      rw [← List.cons_append, matchLit_self_append]
      rfl
  | cons c a ih =>
    rw [List.cons_append]
    simp only [hasSeq, Bool.or_eq_true]
    exact Or.inr ih

theorem snippetFind_matched {s : String} {r : Record}
    (h : snippetFind s = MatchResult.Matched r) :
    ∃ rest, runSchema snippetSpecs s.data = some (r, rest) := by
  unfold snippetFind at h
  cases hx : runSchema snippetSpecs s.data with
  | none =>
    simp only [hx] at h
    exact absurd h (by simp)
  | some x =>
    obtain ⟨fields, rest⟩ := x
    simp only [hx] at h
    obtain rfl : fields = r := MatchResult.Matched.inj h
    exact ⟨rest, rfl⟩

/-- C1 (counterexample): the spec's §8 test input, which spells the time
"12:15" with a plain ASCII colon, does NOT match: the schema requires the
two-character separator U+200C ':' between Hour and Minute
(orangetheory.go line 41). -/
theorem C1_plain_colon_not_matched :
    snippetFind plainColonInput = MatchResult.NotMatched := by decide

/-- C1 (amended): with the U+200C character before the colon — as in the
source's own example on orangetheory.go line 27 — the input matches and
every field captures exactly the value the claim lists. -/
theorem C1_example_matches :
    snippetFind exampleInput = MatchResult.Matched exampleRecord := by decide

/-- C2: matching is anchored at the start of the input: every matching
input starts, at offset 0, with the schema's first literal
"STUDIO WORKOUT SUMMARY "; and prepending extra text to a matching input
(so the pattern occurs only at a nonzero offset) yields NotMatched. -/
theorem C2_anchored_at_start :
    (∀ (s : String) (r : Record), snippetFind s = MatchResult.Matched r →
      (matchLit headerLit.data s.data).isSome = true) ∧
    snippetFind ("Forwarded message: " ++ exampleInput) = MatchResult.NotMatched := by
  constructor
  · intro s r h
    obtain ⟨rest, hx⟩ := snippetFind_matched h
    rw [snippetSpecs] at hx
    obtain ⟨c1, f1, hp1, _⟩ := runSchema_cons_split hx
    have hp2 : runPat (Pat.lit headerLit.data) s.data = some c1 := hp1
    obtain ⟨_, hcs⟩ := runPat_lit_parts hp2
    rw [hcs, matchLit_self_append]
    rfl
  · decide

/-- C2 witness: the example input matches, and indeed carries the header
literal at offset 0. -/
theorem C2_anchored_at_start_witness :
    (matchLit headerLit.data exampleInput.data).isSome = true :=
  C2_anchored_at_start.1 exampleInput exampleRecord (by decide)

/-- C3 (counterexample): appending the trailing text "5" to a matching
input still matches but changes the record: the final greedy `\d+`
capture (PeakHeartRate) absorbs the appended digit, giving "805" instead
of "80". -/
theorem C3_trailing_digit_changes_record :
    snippetFind exampleInput = MatchResult.Matched exampleRecord ∧
    snippetFind (exampleInput ++ "5") = MatchResult.Matched trailingDigitRecord ∧
    trailingDigitRecord ≠ exampleRecord :=
  ⟨by decide, by decide, by decide⟩

/-- C3 (amended): appending trailing text that is empty or does not begin
with a decimal digit to a matching input yields the same Matched record. -/
theorem C3_trailing_text_preserved (s t : String) (r : Record)
    (h : snippetFind s = MatchResult.Matched r)
    (ht : headBlocks isDigitChar t.data = true) :
    snippetFind (s ++ t) = MatchResult.Matched r := by
  obtain ⟨rest, hx⟩ := snippetFind_matched h
  have htail : tailOk t.data snippetSpecs = true := by
    have heq : tailOk t.data snippetSpecs = headBlocks isDigitChar t.data := rfl
    rw [heq]
    exact ht
  have happ := runSchema_append t.data (by decide) htail hx
  unfold snippetFind
  have hdata : (s ++ t).data = s.data ++ t.data := rfl
  rw [hdata, happ]

/-- C3 witness: appending " Thanks!" to the example input leaves the
extracted record unchanged. -/
theorem C3_trailing_text_preserved_witness :
    snippetFind (exampleInput ++ " See you!") = MatchResult.Matched exampleRecord :=
  C3_trailing_text_preserved exampleInput " See you!" exampleRecord
    (by decide) (by decide)

/-- C4: sorting the three records (Year="2021", Month="09"),
(Year="2021", Month="10"), (Year="2021", Month="2") by the lexicographic
date-key comparator places "09" first, then "10", then "2" — in
particular "10" sorts before "2". -/
theorem C4_lexicographic_sort :
    sortRecords [recSep09, recOct10, recMonth2] =
      [recSep09, recOct10, recMonth2] ∧
    sortRecords [recMonth2, recOct10, recSep09] =
      [recSep09, recOct10, recMonth2] ∧
    recordBefore recSep09 recOct10 = true ∧
    recordBefore recOct10 recMonth2 = true := by decide

/-- C5 (counterexample): a successful match produces a record of exactly
18 named fields, not 21 as the claim counts. -/
theorem C5_eighteen_not_21 :
    snippetFind exampleInput = MatchResult.Matched exampleRecord ∧
    exampleRecord.length = 18 ∧ exampleRecord.length ≠ 21 :=
  ⟨by decide, by decide, by decide⟩

/-- C5 (amended): every successful match produces a record whose keys
are, in order, exactly the 18 named fields City, State, Month, Day, Year,
Hour, Minute, AMPM, Instructor, Zone1-Zone5, Calories, SplatPoints,
AverageHeartRate, PeakHeartRate — and nothing else (anonymous separator
fields are discarded). -/
theorem C5_named_fields (s : String) (r : Record)
    (h : snippetFind s = MatchResult.Matched r) :
    r.map Prod.fst = snippetFieldNames ∧ r.length = 18 := by
  obtain ⟨rest, hx⟩ := snippetFind_matched h
  have hnames := runSchema_names hx
  have heq : snippetSpecs.filterMap FieldSpec.name = snippetFieldNames := by decide
  have hmap : r.map Prod.fst = snippetFieldNames := by
    rw [show ((r, rest).1 : Record) = r from rfl] at hnames
    rw [hnames, heq]
  refine ⟨hmap, ?_⟩
  have hlen : r.length = snippetFieldNames.length := by
    rw [← List.length_map r Prod.fst, hmap]
  rw [hlen]
  decide

/-- C5 witness: the example record has exactly the 18 field names. -/
theorem C5_named_fields_witness :
    exampleRecord.map Prod.fst = snippetFieldNames ∧ exampleRecord.length = 18 :=
  C5_named_fields exampleInput exampleRecord (by decide)

/-- C6 (counterexample): the separator " AVG. HEART-RATE Peak HR: "
contains a regex `.` (any character); altering the input at that position
(to "AVGX HEART-RATE") still yields Matched, contradicting the claim
that every altered separator yields NotMatched. -/
theorem C6_dot_alteration_still_matches :
    snippetFind avgAlteredInput = MatchResult.Matched exampleRecord := by decide

/-- C6 (amended): every matching input contains every literal separator
of the schema contiguously (so an input from which any literal is absent
yields NotMatched), except that the `.` in " AVG. HEART-RATE Peak HR: "
is a regex any-character and may be altered freely; in particular the
input with "CALORIES BURNED" misspelled as "CALORIES BURNT" yields
NotMatched. -/
theorem C6_literal_separators :
    (∀ (s : String) (r : Record), snippetFind s = MatchResult.Matched r →
      ∀ l ∈ litsOf snippetSpecs, hasSeq l s.data = true) ∧
    snippetFind misspelledInput = MatchResult.NotMatched := by
  constructor
  · intro s r h l hl
    obtain ⟨rest, hx⟩ := snippetFind_matched h
    obtain ⟨a, b, hab⟩ := runSchema_lits hx l hl
    rw [hab]
    exact hasSeq_of_append l a b
  · decide

/-- C6 witness: the example input contains " CALORIES BURNED ". -/
theorem C6_literal_separators_witness :
    hasSeq (" CALORIES BURNED ".data) exampleInput.data = true :=
  C6_literal_separators.1 exampleInput exampleRecord (by decide)
    (" CALORIES BURNED ".data) (by decide)

/-- C7: matching is total: for every input string the matcher returns
either NotMatched or Matched of some record (it is a total function of
the input, defined by structural recursion, so it always terminates and
never raises an error). -/
theorem C7_total (s : String) :
    snippetFind s = MatchResult.NotMatched ∨
      ∃ r, snippetFind s = MatchResult.Matched r := by
  unfold snippetFind
  cases hx : runSchema snippetSpecs s.data with
  | none => left; rfl
  | some x => right; exact ⟨x.1, rfl⟩

/-- C7 witness: at a concrete input. -/
theorem C7_total_witness :
    snippetFind plainColonInput = MatchResult.NotMatched ∨
      ∃ r, snippetFind plainColonInput = MatchResult.Matched r :=
  C7_total plainColonInput

/-- C8: the matcher is deterministic: two results of matching the same
input are equal (the matcher is a pure function, so two calls on one
input yield identical records). -/
theorem C8_deterministic (s : String) (r₁ r₂ : Record)
    (h₁ : snippetFind s = MatchResult.Matched r₁)
    (h₂ : snippetFind s = MatchResult.Matched r₂) : r₁ = r₂ := by
  rw [h₁] at h₂
  exact MatchResult.Matched.inj h₂

/-- C8 witness: at the example input. -/
theorem C8_deterministic_witness : exampleRecord = exampleRecord :=
  C8_deterministic exampleInput exampleRecord exampleRecord
    (by decide) (by decide)

/-- C9 (counterexample): the digit-captured named fields of the schema
number 14 (Month, Day, Year, Hour, Minute, Zone1-Zone5, Calories,
SplatPoints, AverageHeartRate, PeakHeartRate), not sixteen as the claim
counts. -/
theorem C9_fourteen_not_16 :
    (namesOfPat Pat.digitPlus snippetSpecs).length = 14 ∧
    (namesOfPat Pat.digitPlus snippetSpecs).length ≠ 16 := by decide

/-- C9 (amended): every record of a successful match is sound for the
schema (`RecOk`): each of the 14 digit fields is a nonempty string of
decimal digits, City, State and Instructor are nonempty strings of word
characters, and AMPM is exactly two word characters; the last three
conjuncts list which named fields carry which pattern. -/
theorem C9_field_wellformedness :
    (∀ (s : String) (r : Record), snippetFind s = MatchResult.Matched r →
      RecOk snippetSpecs r) ∧
    namesOfPat Pat.digitPlus snippetSpecs =
      [ "Month", "Day", "Year", "Hour", "Minute", "Zone1", "Zone2", "Zone3",
        "Zone4", "Zone5", "Calories", "SplatPoints", "AverageHeartRate",
        "PeakHeartRate" ] ∧
    namesOfPat Pat.wordPlus snippetSpecs = ["City", "State", "Instructor"] ∧
    namesOfPat (Pat.wordExact 2) snippetSpecs = ["AMPM"] := by
  refine ⟨?_, by decide, by decide, by decide⟩
  intro s r h
  obtain ⟨rest, hx⟩ := snippetFind_matched h
  exact runSchema_recOk hx

/-- C9 witness: the example record is sound for the schema. -/
theorem C9_field_wellformedness_witness : RecOk snippetSpecs exampleRecord :=
  C9_field_wellformedness.1 exampleInput exampleRecord (by decide)

/-- C10: every matching input starts with the header literal followed
immediately by a nonempty run of word characters (the City capture)
followed immediately by the literal ", "; hence an input whose city
portion contains a space, such as "New York", yields NotMatched. -/
theorem C10_city_word_chars :
    (∀ (s : String) (r : Record), snippetFind s = MatchResult.Matched r →
      cityShape s.data = true) ∧
    snippetFind newYorkInput = MatchResult.NotMatched := by
  constructor
  · intro s r h
    obtain ⟨rest, hx⟩ := snippetFind_matched h
    rw [snippetSpecs] at hx
    obtain ⟨c1, f1, hp1, hs1⟩ := runSchema_cons_split hx
    have hp1w : runPat (Pat.lit headerLit.data) s.data = some c1 := hp1
    obtain ⟨_, hc1⟩ := runPat_lit_parts hp1w
    obtain ⟨c2, f2, hp2, hs2⟩ := runSchema_cons_split hs1
    have hp2w : runPat Pat.wordPlus c1.2 = some c2 := hp2
    obtain ⟨c3, f3, hp3, _⟩ := runSchema_cons_split hs2
    have hp3w : runPat (Pat.lit (", ".data)) c2.2 = some c3 := hp3
    obtain ⟨_, hc2⟩ := runPat_lit_parts hp3w
    unfold cityShape
    rw [hc1, matchLit_self_append]
    show (!(munch isWordChar c1.2).1.isEmpty &&
      (matchLit (", ".data) (munch isWordChar c1.2).2).isSome) = true
    simp only [runPat] at hp2w
    split at hp2w
    · exact absurd hp2w (by simp)
    · next hne =>
      have hm := Option.some.inj hp2w
      rw [hm, hc2, matchLit_self_append]
      have hemp : c2.1.isEmpty = false := by
        rw [← hm]
        simpa using hne
      simp [hemp]
  · decide

/-- C10 witness: the example input, whose city "Bothell" is a single run
of word characters, has the required shape. -/
theorem C10_city_word_chars_witness : cityShape exampleInput.data = true :=
  C10_city_word_chars.1 exampleInput exampleRecord (by decide)

end Orangetheory
